import Mathlib

/-!
# external-dns: ingress endpoint extraction

A shallow embedding of `source/ingress.go`:

* `sanitizeHostname`      (ingress.go, lines 87-90)
* `endpointsFromIngress`  (ingress.go, lines 60-85)

Go strings are immutable byte sequences, so a string is a list of bytes.  The
Kubernetes API types are reduced to the fields the extraction reads.
-/

namespace ExternalDNS

/-! ## Strings -/

/-- A Go `string`: a finite sequence of bytes. -/
abbrev GoString := List UInt8

/-- The byte of the ASCII full stop, the one-byte cutset `"."` of `sanitizeHostname`. -/
def dot : UInt8 := 46

/-- A Go string literal: the UTF-8 bytes of the text. -/
def str (s : String) : GoString := s.toUTF8.data.toList

/-- Go `strings.trimLeftByte`:
`for len(s) > 0 && s[0] == c { s = s[1:] }; return s`. -/
def trimLeftByte : GoString → UInt8 → GoString
  | [], _ => []
  | b :: rest, c => if b = c then trimLeftByte rest c else b :: rest

/-- Go `strings.trimRightByte`:
`for len(s) > 0 && s[len(s)-1] == c { s = s[:len(s)-1] }; return s`.
The loop eats bytes from the end, which is the left trim of the reversed
string; `trimRightByte_nil`, `trimRightByte_concat_eq` and
`trimRightByte_concat_ne` below are the loop's three unfolding equations. -/
def trimRightByte (s : GoString) (c : UInt8) : GoString :=
  (trimLeftByte s.reverse c).reverse

/-- Go `strings.Trim(s, cutset)` for a cutset of one ASCII byte `c`, the only
way this package calls it:
`return trimLeftByte(trimRightByte(s, cutset[0]), cutset[0])`. -/
def Trim (s : GoString) (c : UInt8) : GoString :=
  if s = [] then s else trimLeftByte (trimRightByte s c) c

/-- Embedding of `sanitizeHostname` (ingress.go:88):
`return strings.Trim(hostname, ".") + "."`. -/
def sanitizeHostname (hostname : GoString) : GoString :=
  Trim hostname dot ++ [dot]

/-! ## Data model -/

/-- The `endpoint.Endpoint` struct: the two fields the extraction fills. -/
structure Endpoint where
  DNSName : GoString
  Target : GoString
  deriving DecidableEq, Repr

/-- The `v1beta1.IngressRule` struct, reduced to `Host`. -/
structure IngressRule where
  Host : GoString
  deriving DecidableEq, Repr

/-- The `v1beta1.IngressSpec` struct, reduced to `Rules`. -/
structure IngressSpec where
  Rules : List IngressRule
  deriving DecidableEq, Repr

/-- The `v1.LoadBalancerIngress` struct: one resolved address. -/
structure LoadBalancerIngress where
  IP : GoString
  Hostname : GoString
  deriving DecidableEq, Repr

/-- The `v1.LoadBalancerStatus` struct. -/
structure LoadBalancerStatus where
  Ingress : List LoadBalancerIngress
  deriving DecidableEq, Repr

/-- The `v1beta1.IngressStatus` struct. -/
structure IngressStatus where
  LoadBalancer : LoadBalancerStatus
  deriving DecidableEq, Repr

/-- The `v1beta1.Ingress` struct, reduced to `Spec` and `Status`. -/
structure Ingress where
  Spec : IngressSpec
  Status : IngressStatus
  deriving DecidableEq, Repr

/-- An ingress resource with the given rules and load-balancer addresses. -/
def mkIngress (rules : List IngressRule) (addrs : List LoadBalancerIngress) : Ingress :=
  { Spec := { Rules := rules }, Status := { LoadBalancer := { Ingress := addrs } } }

/-! ## Extraction -/

/-- Body of the inner loop of `endpointsFromIngress` (ingress.go:69-80) for
one address `lb` under the rule host `host`: two guarded appends. -/
def appendAddress (host : GoString) (endpoints : List Endpoint) (lb : LoadBalancerIngress) :
    List Endpoint :=
  let endpoints :=
    if lb.IP ≠ [] then
      endpoints ++ [{ DNSName := sanitizeHostname host, Target := lb.IP }]
    else endpoints
  if lb.Hostname ≠ [] then
    endpoints ++ [{ DNSName := sanitizeHostname host, Target := lb.Hostname }]
  else endpoints

/-- Body of the outer loop of `endpointsFromIngress` (ingress.go:65-81) for
one rule: `continue` on an empty host, otherwise the inner loop over
`ing.Status.LoadBalancer.Ingress`. -/
def appendRule (ing : Ingress) (endpoints : List Endpoint) (rule : IngressRule) :
    List Endpoint :=
  if rule.Host = [] then endpoints
  else ing.Status.LoadBalancer.Ingress.foldl (appendAddress rule.Host) endpoints

/-- Embedding of `endpointsFromIngress` (ingress.go:61-85): the accumulator
`endpoints` starts as the nil slice and is threaded through both loops. -/
def endpointsFromIngress (ing : Ingress) : List Endpoint :=
  ing.Spec.Rules.foldl (appendRule ing) []

/-! ## The extraction as the specification words it -/

/-- What one address emits for a host, in the words of the specification: the
IP endpoint when the IP is non-empty, immediately followed by the hostname
endpoint when the hostname is non-empty. -/
def emitAddress (host : GoString) (lb : LoadBalancerIngress) : List Endpoint :=
  (if lb.IP ≠ [] then [{ DNSName := sanitizeHostname host, Target := lb.IP }] else []) ++
  (if lb.Hostname ≠ [] then [{ DNSName := sanitizeHostname host, Target := lb.Hostname }]
   else [])

/-- The extraction in the words of the specification: walk the rules in
order, skip the rules with host `""`, and for each remaining rule walk the
addresses in order. -/
def endpointsSpec (rules : List IngressRule) (addrs : List LoadBalancerIngress) :
    List Endpoint :=
  (rules.filter (fun r => decide (r.Host ≠ []))).flatMap
    (fun r => addrs.flatMap (emitAddress r.Host))

/-- Number of endpoints one address contributes per rule: one for a non-empty
IP plus one for a non-empty hostname. -/
def addressWeight (lb : LoadBalancerIngress) : Nat :=
  (if lb.IP ≠ [] then 1 else 0) + (if lb.Hostname ≠ [] then 1 else 0)

/-- Number of rules of a rule list whose host is not `""`. -/
def nonEmptyHosts (rules : List IngressRule) : Nat :=
  (rules.filter (fun r => decide (r.Host ≠ []))).length

/-- Two host strings that differ only in leading and trailing dots: a common
middle part between runs of dots. -/
def dotVariant (h1 h2 : GoString) : Prop :=
  ∃ a1 b1 a2 b2 core : GoString,
    (∀ x ∈ a1, x = dot) ∧ (∀ x ∈ b1, x = dot) ∧ (∀ x ∈ a2, x = dot) ∧ (∀ x ∈ b2, x = dot) ∧
    h1 = a1 ++ core ++ b1 ∧ h2 = a2 ++ core ++ b2

/-- Two rules whose hosts differ only in leading and trailing dots, an empty
host staying empty and a non-empty host staying non-empty. -/
def ruleDotVariant (r1 r2 : IngressRule) : Prop :=
  dotVariant r1.Host r2.Host ∧ (r1.Host = [] ↔ r2.Host = [])

/-! ## The ingress source -/

/-- The `v1beta1.IngressList` struct, reduced to `Items`. -/
structure IngressList where
  Items : List Ingress
  deriving DecidableEq, Repr

/-- The `kubernetes.Interface` client, reduced to the one call chain that
`Endpoints` makes, `Extensions().Ingresses(namespace).List(v1.ListOptions{})`:
from the namespace to the returned list and the returned `error`.  `Err` is the
type of Go `error` values and `none` is the nil error. -/
structure Interface (Err : Type) where
  ListIngresses : GoString → IngressList × Option Err

/-- The `ingressSource` struct (ingress.go:32-35); `nspace` is its field
`namespace`. -/
structure ingressSource (Err : Type) where
  client : Interface Err
  nspace : GoString

/-- Embedding of `ingressSource.Endpoints` (ingress.go:44-58): the pair
(endpoints, error) that the method returns.  On a listing error the nil slice
and the error are returned; otherwise the accumulator `endpoints` starts empty
and each resource's endpoints are appended in listing order. -/
def ingressSource.Endpoints {Err : Type} (sc : ingressSource Err) :
    List Endpoint × Option Err :=
  match sc.client.ListIngresses sc.nspace with
  | (_, some err) => ([], some err)
  | (ingresses, none) =>
    (ingresses.Items.foldl (fun endpoints ing => endpoints ++ endpointsFromIngress ing) [],
      none)

/-- A stub client whose listing succeeds, in every namespace, with the given
resources. -/
def listingClient (Err : Type) (items : List Ingress) : Interface Err :=
  { ListIngresses := fun _ => ({ Items := items }, none) }

/-- A stub client whose listing fails with `err`, next to a list that still
holds the given resources. -/
def failingClient {Err : Type} (items : List Ingress) (err : Err) : Interface Err :=
  { ListIngresses := fun _ => ({ Items := items }, some err) }

/-! ## Trimming lemmas -/

theorem trimLeftByte_nil (c : UInt8) : trimLeftByte [] c = [] := rfl

theorem trimLeftByte_cons_eq (s : GoString) (c : UInt8) :
    trimLeftByte (c :: s) c = trimLeftByte s c := by
  simp [trimLeftByte]

theorem trimLeftByte_cons_ne (b : UInt8) (s : GoString) (c : UInt8) (h : b ≠ c) :
    trimLeftByte (b :: s) c = b :: s := by
  simp [trimLeftByte, h]

/-- The left trim splits the string into a run of `c` and the result, and the
result does not start with `c`. -/
theorem trimLeftByte_split (s : GoString) (c : UInt8) :
    ∃ a : GoString, s = a ++ trimLeftByte s c ∧ (∀ x ∈ a, x = c) ∧
      (trimLeftByte s c).head? ≠ some c := by
  induction s with
  | nil => exact ⟨[], by simp [trimLeftByte]⟩
  | cons b rest ih =>
    by_cases hb : b = c
    · obtain ⟨a, h1, h2, h3⟩ := ih
      subst hb
      refine ⟨b :: a, ?_, ?_, ?_⟩
      · rw [trimLeftByte_cons_eq]
        exact congrArg (List.cons b) h1
      · intro x hx
        rcases List.mem_cons.mp hx with hx | hx
        · exact hx
        · exact h2 x hx
      · rw [trimLeftByte_cons_eq]
        exact h3
    · refine ⟨[], ?_, ?_, ?_⟩
      · rw [trimLeftByte_cons_ne b rest c hb]
        rfl
      · simp
      · rw [trimLeftByte_cons_ne b rest c hb]
        simpa using hb

/-- A string that does not start with `c` is left alone by the left trim. -/
theorem trimLeftByte_of_head (s : GoString) (c : UInt8) (h : s.head? ≠ some c) :
    trimLeftByte s c = s := by
  cases s with
  | nil => rfl
  | cons b rest =>
    have hb : b ≠ c := by simpa using h
    exact trimLeftByte_cons_ne b rest c hb

/-- A string of `c` bytes only is trimmed to the empty string. -/
theorem trimLeftByte_all (s : GoString) (c : UInt8) (h : ∀ x ∈ s, x = c) :
    trimLeftByte s c = [] := by
  induction s with
  | nil => rfl
  | cons b rest ih =>
    have hb : b = c := h b (List.mem_cons_self b rest)
    subst hb
    rw [trimLeftByte_cons_eq]
    exact ih (fun x hx => h x (List.mem_cons_of_mem b hx))

/-- The left trim keeps the last byte of a string it does not empty. -/
theorem trimLeftByte_getLast (s : GoString) (c : UInt8) (h : s.getLast? ≠ some c) :
    (trimLeftByte s c).getLast? ≠ some c := by
  obtain ⟨a, h1, _, _⟩ := trimLeftByte_split s c
  intro hlast
  apply h
  rw [h1]
  cases ht : trimLeftByte s c with
  | nil => rw [ht] at hlast; simp at hlast
  | cons b rest =>
    rw [ht] at hlast
    rw [List.getLast?_append_of_ne_nil a (by simp)]
    exact hlast

theorem trimRightByte_nil (c : UInt8) : trimRightByte [] c = [] := rfl

theorem trimRightByte_concat_eq (s : GoString) (c : UInt8) :
    trimRightByte (s ++ [c]) c = trimRightByte s c := by
  simp [trimRightByte, trimLeftByte_cons_eq]

theorem trimRightByte_concat_ne (s : GoString) (b c : UInt8) (h : b ≠ c) :
    trimRightByte (s ++ [b]) c = s ++ [b] := by
  simp [trimRightByte, trimLeftByte_cons_ne _ _ _ h]

/-- The right trim splits the string into the result and a run of `c`, and
the result does not end with `c`. -/
theorem trimRightByte_split (s : GoString) (c : UInt8) :
    ∃ b : GoString, s = trimRightByte s c ++ b ∧ (∀ x ∈ b, x = c) ∧
      (trimRightByte s c).getLast? ≠ some c := by
  obtain ⟨a, h1, h2, h3⟩ := trimLeftByte_split s.reverse c
  refine ⟨a.reverse, ?_, ?_, ?_⟩
  · have h := congrArg List.reverse h1
    rw [List.reverse_reverse, List.reverse_append] at h
    exact h
  · intro x hx
    exact h2 x (List.mem_reverse.mp hx)
  · unfold trimRightByte
    rw [List.getLast?_reverse]
    exact h3

/-- A string that does not end with `c` is left alone by the right trim. -/
theorem trimRightByte_of_getLast (s : GoString) (c : UInt8) (h : s.getLast? ≠ some c) :
    trimRightByte s c = s := by
  unfold trimRightByte
  rw [trimLeftByte_of_head s.reverse c (by rw [List.head?_reverse]; exact h)]
  exact List.reverse_reverse s

/-- A string of `c` bytes only is trimmed to the empty string. -/
theorem trimRightByte_all (s : GoString) (c : UInt8) (h : ∀ x ∈ s, x = c) :
    trimRightByte s c = [] := by
  unfold trimRightByte
  rw [trimLeftByte_all s.reverse c (fun x hx => h x (List.mem_reverse.mp hx))]
  rfl

/-! ## `Trim` and `sanitizeHostname` -/

/-- The guard `s == ""` of `Trim` changes nothing: both trims fix `""`. -/
theorem Trim_eq (s : GoString) (c : UInt8) :
    Trim s c = trimLeftByte (trimRightByte s c) c := by
  unfold Trim
  split
  · next h => subst h; rfl
  · rfl

/-- `Trim` splits the string as `a ++ Trim s c ++ b` with `a`, `b` runs of `c`
and the result neither starting nor ending with `c`. -/
theorem Trim_split (s : GoString) (c : UInt8) :
    ∃ a b : GoString, s = a ++ Trim s c ++ b ∧ (∀ x ∈ a, x = c) ∧ (∀ x ∈ b, x = c) ∧
      (Trim s c).head? ≠ some c ∧ (Trim s c).getLast? ≠ some c := by
  obtain ⟨b, hb1, hb2, hb3⟩ := trimRightByte_split s c
  obtain ⟨a, ha1, ha2, ha3⟩ := trimLeftByte_split (trimRightByte s c) c
  refine ⟨a, b, ?_, ha2, hb2, ?_, ?_⟩
  · rw [Trim_eq, ← ha1]
    exact hb1
  · rw [Trim_eq]
    exact ha3
  · rw [Trim_eq]
    exact trimLeftByte_getLast _ c hb3

/-- `Trim` leaves alone a string that neither starts nor ends with `c`. -/
theorem Trim_of_clean (s : GoString) (c : UInt8) (h1 : s.head? ≠ some c)
    (h2 : s.getLast? ≠ some c) : Trim s c = s := by
  rw [Trim_eq, trimRightByte_of_getLast s c h2, trimLeftByte_of_head s c h1]

/-- Trimming is blind to one more `c` at the end. -/
theorem Trim_concat (s : GoString) (c : UInt8) : Trim (s ++ [c]) c = Trim s c := by
  rw [Trim_eq, Trim_eq, trimRightByte_concat_eq]

/-- `Trim` of a run of `c` is the empty string. -/
theorem Trim_all (s : GoString) (c : UInt8) (h : ∀ x ∈ s, x = c) : Trim s c = [] := by
  rw [Trim_eq, trimRightByte_all s c h]
  rfl

/-- `Trim` is idempotent. -/
theorem Trim_Trim (s : GoString) (c : UInt8) : Trim (Trim s c) c = Trim s c := by
  obtain ⟨_, _, _, _, _, h1, h2⟩ := Trim_split s c
  exact Trim_of_clean _ c h1 h2

/-- The result of `sanitizeHostname`: the trimmed core, which neither starts
nor ends with a dot, followed by one dot. -/
theorem sanitizeHostname_core (h : GoString) :
    ∃ a b : GoString, h = a ++ Trim h dot ++ b ∧ (∀ x ∈ a, x = dot) ∧ (∀ x ∈ b, x = dot) ∧
      (Trim h dot).head? ≠ some dot ∧ (Trim h dot).getLast? ≠ some dot ∧
      sanitizeHostname h = Trim h dot ++ [dot] := by
  obtain ⟨a, b, h1, h2, h3, h4, h5⟩ := Trim_split h dot
  exact ⟨a, b, h1, h2, h3, h4, h5, rfl⟩

/-! ## Claims about `sanitizeHostname` -/

/-- C2: `sanitizeHostname` is idempotent: for every string `h`,
`sanitizeHostname (sanitizeHostname h) = sanitizeHostname h`. -/
theorem sanitizeHostname_idempotent (h : GoString) :
    sanitizeHostname (sanitizeHostname h) = sanitizeHostname h := by
  unfold sanitizeHostname
  rw [Trim_concat, Trim_Trim]

/-- C3: for every string `h` (the empty string and runs of dots included),
`sanitizeHostname h` is non-empty, its last byte is `.`, and when it has more
than one byte the second-to-last byte is not `.`. -/
theorem sanitizeHostname_ends_with_one_dot (h : GoString) :
    sanitizeHostname h ≠ [] ∧
    (sanitizeHostname h).getLast? = some dot ∧
    (1 < (sanitizeHostname h).length →
      (sanitizeHostname h)[(sanitizeHostname h).length - 2]? ≠ some dot) := by
  obtain ⟨_, _, _, _, _, _, hlast, hs⟩ := sanitizeHostname_core h
  rw [hs]
  refine ⟨by simp, by simp, ?_⟩
  intro hlen
  have hlen2 : 0 < (Trim h dot).length := by
    simp only [List.length_append, List.length_singleton] at hlen
    omega
  have hidx : (Trim h dot ++ [dot]).length - 2 = (Trim h dot).length - 1 := by
    simp only [List.length_append, List.length_singleton]
    omega
  rw [hidx, List.getElem?_append_left (by omega), ← List.getLast?_eq_getElem?]
  exact hlast

/-- C4: every string `h` splits as `a ++ core ++ b` with `a` and `b` runs of
dots and `core` neither starting nor ending with a dot, such that
`sanitizeHostname h = core ++ "."`; when `h` is empty or only dots the result
is exactly `"."`. -/
theorem sanitizeHostname_strips (h : GoString) :
    (∃ a core b : GoString, h = a ++ core ++ b ∧ (∀ x ∈ a, x = dot) ∧ (∀ x ∈ b, x = dot) ∧
      core.head? ≠ some dot ∧ core.getLast? ≠ some dot ∧
      sanitizeHostname h = core ++ [dot]) ∧
    ((∀ x ∈ h, x = dot) → sanitizeHostname h = [dot]) := by
  constructor
  · obtain ⟨a, b, h1, h2, h3, h4, h5, h6⟩ := sanitizeHostname_core h
    exact ⟨a, Trim h dot, b, h1, h2, h3, h4, h5, h6⟩
  · intro hall
    unfold sanitizeHostname
    rw [Trim_all h dot hall]
    rfl

/-- C5: the doc comment of `sanitizeHostname` (ingress.go:87) says that it
appends a trailing dot to a hostname if it is missing; the code departs from
it: `".a"` does not end with a dot, yet the result is `"a."`, not `".a."`, and
`"a.."` ends with a dot, yet the result is `"a."`, not `"a.."`. -/
theorem sanitizeHostname_not_only_appends :
    ((str ".a").getLast? ≠ some dot ∧
      sanitizeHostname (str ".a") = str "a." ∧
      sanitizeHostname (str ".a") ≠ str ".a" ++ [dot]) ∧
    ((str "a..").getLast? = some dot ∧
      sanitizeHostname (str "a..") = str "a." ∧
      sanitizeHostname (str "a..") ≠ str "a..") := by
  decide

/-- Where the code and its doc comment agree: for every string `h` that
neither starts nor ends with a dot, `sanitizeHostname h = h ++ "."` (the
missing dot is appended) and `sanitizeHostname (h ++ ".") = h ++ "."` (a name
that already ends with its one dot is returned as it is). -/
theorem sanitizeHostname_appends_missing_dot (h : GoString)
    (hhead : h.head? ≠ some dot) (hlast : h.getLast? ≠ some dot) :
    sanitizeHostname h = h ++ [dot] ∧ sanitizeHostname (h ++ [dot]) = h ++ [dot] := by
  unfold sanitizeHostname
  rw [Trim_concat, Trim_of_clean h dot hhead hlast]
  exact ⟨rfl, rfl⟩

/-- The agreement of code and doc comment at `"foo.example.com"`. -/
theorem sanitizeHostname_appends_missing_dot_witness :
    (str "foo.example.com").head? ≠ some dot ∧
    (str "foo.example.com").getLast? ≠ some dot ∧
    sanitizeHostname (str "foo.example.com") = str "foo.example.com" ++ [dot] ∧
    sanitizeHostname (str "foo.example.com" ++ [dot]) = str "foo.example.com" ++ [dot] :=
  ⟨by decide, by decide,
    sanitizeHostname_appends_missing_dot (str "foo.example.com") (by decide) (by decide)⟩

/-! ## Loop lemmas for `endpointsFromIngress` -/

/-- One pass of the inner loop body appends what the address emits. -/
theorem appendAddress_eq (host : GoString) (acc : List Endpoint) (lb : LoadBalancerIngress) :
    appendAddress host acc lb = acc ++ emitAddress host lb := by
  unfold appendAddress emitAddress
  by_cases h1 : lb.IP = [] <;> by_cases h2 : lb.Hostname = [] <;> simp [h1, h2]

/-- The inner loop appends, address by address, what each address emits. -/
theorem foldl_appendAddress (host : GoString) (addrs : List LoadBalancerIngress)
    (acc : List Endpoint) :
    addrs.foldl (appendAddress host) acc = acc ++ addrs.flatMap (emitAddress host) := by
  induction addrs generalizing acc with
  | nil => simp
  | cons lb rest ih =>
    rw [List.foldl_cons, ih, appendAddress_eq, List.flatMap_cons, List.append_assoc]

/-- One pass of the outer loop body appends the endpoints of the rule. -/
theorem appendRule_eq (ing : Ingress) (acc : List Endpoint) (rule : IngressRule) :
    appendRule ing acc rule =
      acc ++ endpointsSpec [rule] ing.Status.LoadBalancer.Ingress := by
  unfold appendRule endpointsSpec
  by_cases h : rule.Host = []
  · simp [h]
  · simp [h, foldl_appendAddress]

/-- The specification-worded extraction distributes over the rule list. -/
theorem endpointsSpec_append (rs1 rs2 : List IngressRule) (addrs : List LoadBalancerIngress) :
    endpointsSpec (rs1 ++ rs2) addrs = endpointsSpec rs1 addrs ++ endpointsSpec rs2 addrs := by
  unfold endpointsSpec
  rw [List.filter_append, List.flatMap_append]

/-- The outer loop appends, rule by rule, the endpoints of each rule. -/
theorem foldl_appendRule (ing : Ingress) (rules : List IngressRule) (acc : List Endpoint) :
    rules.foldl (appendRule ing) acc =
      acc ++ endpointsSpec rules ing.Status.LoadBalancer.Ingress := by
  induction rules generalizing acc with
  | nil => simp [endpointsSpec]
  | cons r rest ih =>
    rw [List.foldl_cons, ih, appendRule_eq, List.append_assoc, ← endpointsSpec_append]
    rfl

/-- The loops compute the specification-worded extraction. -/
theorem endpointsFromIngress_eq (ing : Ingress) :
    endpointsFromIngress ing =
      endpointsSpec ing.Spec.Rules ing.Status.LoadBalancer.Ingress := by
  unfold endpointsFromIngress
  rw [foldl_appendRule]
  rfl

/-- A rule with host `""` emits nothing. -/
theorem endpointsSpec_empty_host (r : IngressRule) (addrs : List LoadBalancerIngress)
    (h : r.Host = []) : endpointsSpec [r] addrs = [] := by
  simp [endpointsSpec, h]

/-- An address emits as many endpoints as its weight. -/
theorem length_emitAddress (host : GoString) (lb : LoadBalancerIngress) :
    (emitAddress host lb).length = addressWeight lb := by
  unfold emitAddress addressWeight
  by_cases h1 : lb.IP = [] <;> by_cases h2 : lb.Hostname = [] <;> simp [h1, h2]

/-- Endpoints of one rule: the sum of the weights of the addresses. -/
theorem length_flatMap_emitAddress (host : GoString) (addrs : List LoadBalancerIngress) :
    (addrs.flatMap (emitAddress host)).length = (addrs.map addressWeight).sum := by
  induction addrs with
  | nil => rfl
  | cons lb rest ih =>
    rw [List.flatMap_cons, List.length_append, ih, length_emitAddress, List.map_cons,
      List.sum_cons]

/-- The number of endpoints: rules with a non-empty host times the summed
weights of the addresses. -/
theorem length_endpointsSpec (rules : List IngressRule) (addrs : List LoadBalancerIngress) :
    (endpointsSpec rules addrs).length =
      nonEmptyHosts rules * (addrs.map addressWeight).sum := by
  induction rules with
  | nil => simp [endpointsSpec, nonEmptyHosts]
  | cons r rest ih =>
    have hsplit : r :: rest = [r] ++ rest := rfl
    rw [hsplit, endpointsSpec_append, List.length_append, ih]
    by_cases h : r.Host = []
    · simp [endpointsSpec, nonEmptyHosts, h]
    · have hf : List.length ∘ emitAddress r.Host = addressWeight :=
        funext (length_emitAddress r.Host)
      simp [endpointsSpec, nonEmptyHosts, h, hf, Nat.add_mul, Nat.add_comm]

/-- What it takes to be emitted by an address under a host. -/
theorem mem_emitAddress (host : GoString) (lb : LoadBalancerIngress) (e : Endpoint) :
    e ∈ emitAddress host lb ↔
      e.DNSName = sanitizeHostname host ∧
        ((lb.IP ≠ [] ∧ e.Target = lb.IP) ∨ (lb.Hostname ≠ [] ∧ e.Target = lb.Hostname)) := by
  obtain ⟨n, t⟩ := e
  unfold emitAddress
  by_cases h1 : lb.IP = [] <;> by_cases h2 : lb.Hostname = [] <;> simp [h1, h2]
  tauto

/-- What it takes to be in the specification-worded extraction. -/
theorem mem_endpointsSpec (rules : List IngressRule) (addrs : List LoadBalancerIngress)
    (e : Endpoint) :
    e ∈ endpointsSpec rules addrs ↔
      ∃ r ∈ rules, r.Host ≠ [] ∧ ∃ lb ∈ addrs, e ∈ emitAddress r.Host lb := by
  unfold endpointsSpec
  simp only [List.mem_flatMap, List.mem_filter, decide_eq_true_eq]
  constructor
  · rintro ⟨r, ⟨hr, hne⟩, lb, hlb, he⟩
    exact ⟨r, hr, hne, lb, hlb, he⟩
  · rintro ⟨r, hr, hne, lb, hlb, he⟩
    exact ⟨r, ⟨hr, hne⟩, lb, hlb, he⟩

/-! ## Claims about `endpointsFromIngress` -/

/-- C1: for every ingress resource, `endpointsFromIngress` returns exactly the
list obtained by walking the rules in order, skipping the rules with host
`""`, and for each remaining rule walking the addresses in order, emitting the
IP endpoint when the IP is non-empty, immediately followed by the hostname
endpoint when the hostname is non-empty. -/
theorem endpointsFromIngress_refines_spec (ing : Ingress) :
    endpointsFromIngress ing =
      (ing.Spec.Rules.filter (fun r => decide (r.Host ≠ []))).flatMap
        (fun r => ing.Status.LoadBalancer.Ingress.flatMap (fun lb =>
          (if lb.IP ≠ [] then
            [{ DNSName := sanitizeHostname r.Host, Target := lb.IP : Endpoint }] else []) ++
          (if lb.Hostname ≠ [] then
            [{ DNSName := sanitizeHostname r.Host, Target := lb.Hostname : Endpoint }]
           else []))) :=
  endpointsFromIngress_eq ing

/-- C6: a rule whose host is `""` contributes no endpoint, whatever the
addresses: extraction on the rules `pre ++ [r] ++ post` returns the same list
as on `pre ++ post`. -/
theorem endpointsFromIngress_skips_empty_host (pre post : List IngressRule) (r : IngressRule)
    (addrs : List LoadBalancerIngress) (h : r.Host = []) :
    endpointsFromIngress (mkIngress (pre ++ [r] ++ post) addrs) =
      endpointsFromIngress (mkIngress (pre ++ post) addrs) := by
  rw [endpointsFromIngress_eq, endpointsFromIngress_eq]
  simp only [mkIngress]
  rw [endpointsSpec_append, endpointsSpec_append, endpointsSpec_append,
    endpointsSpec_empty_host r addrs h, List.append_nil]

/-- C6 at the rules `a.example.com`, `""`, `b.example.com` and one address. -/
theorem endpointsFromIngress_skips_empty_host_witness :
    (IngressRule.mk (str "")).Host = [] ∧
    endpointsFromIngress
      (mkIngress ([⟨str "a.example.com"⟩] ++ [⟨str ""⟩] ++ [⟨str "b.example.com"⟩])
        [⟨str "1.2.3.4", str "lb.example.com"⟩]) =
    endpointsFromIngress
      (mkIngress ([⟨str "a.example.com"⟩] ++ [⟨str "b.example.com"⟩])
        [⟨str "1.2.3.4", str "lb.example.com"⟩]) :=
  ⟨by decide,
    endpointsFromIngress_skips_empty_host [⟨str "a.example.com"⟩] [⟨str "b.example.com"⟩]
      ⟨str ""⟩ [⟨str "1.2.3.4", str "lb.example.com"⟩] (by decide)⟩

/-- C7: for a non-empty host `h` and non-empty `ip` and `hostname`, the
resource with the single rule `h` and the single address carrying both yields
exactly the two endpoints `{sanitizeHostname h, ip}`,
`{sanitizeHostname h, hostname}`, in this order. -/
theorem endpointsFromIngress_both_fields (h ip hostname : GoString)
    (hh : h ≠ []) (hip : ip ≠ []) (hhn : hostname ≠ []) :
    endpointsFromIngress (mkIngress [⟨h⟩] [⟨ip, hostname⟩]) =
      [{ DNSName := sanitizeHostname h, Target := ip },
       { DNSName := sanitizeHostname h, Target := hostname }] := by
  simp [endpointsFromIngress, mkIngress, appendRule, appendAddress, hh, hip, hhn]

/-- C7 at host `foo.example.com`, IP `1.2.3.4`, hostname `lb.example.com`:
the target hostname is not given a trailing dot. -/
theorem endpointsFromIngress_both_fields_witness :
    str "foo.example.com" ≠ [] ∧ str "1.2.3.4" ≠ [] ∧ str "lb.example.com" ≠ [] ∧
    endpointsFromIngress
      (mkIngress [⟨str "foo.example.com"⟩] [⟨str "1.2.3.4", str "lb.example.com"⟩]) =
      [{ DNSName := str "foo.example.com.", Target := str "1.2.3.4" },
       { DNSName := str "foo.example.com.", Target := str "lb.example.com" }] :=
  ⟨by decide, by decide, by decide,
    (endpointsFromIngress_both_fields (str "foo.example.com") (str "1.2.3.4")
      (str "lb.example.com") (by decide) (by decide) (by decide)).trans (by decide)⟩

/-- C8: targets are never normalized: every endpoint returned by
`endpointsFromIngress` has a `Target` that is, byte for byte, the non-empty IP
or the non-empty hostname of one of the resource's addresses, and a `DNSName`
that is `sanitizeHostname` of the host of one of its rules with a non-empty
host. -/
theorem endpointsFromIngress_target_verbatim (ing : Ingress) (e : Endpoint)
    (he : e ∈ endpointsFromIngress ing) :
    (∃ lb ∈ ing.Status.LoadBalancer.Ingress,
      (lb.IP ≠ [] ∧ e.Target = lb.IP) ∨ (lb.Hostname ≠ [] ∧ e.Target = lb.Hostname)) ∧
    (∃ r ∈ ing.Spec.Rules, r.Host ≠ [] ∧ e.DNSName = sanitizeHostname r.Host) := by
  rw [endpointsFromIngress_eq, mem_endpointsSpec] at he
  obtain ⟨r, hr, hne, lb, hlb, hmem⟩ := he
  rw [mem_emitAddress] at hmem
  exact ⟨⟨lb, hlb, hmem.2⟩, ⟨r, hr, hne, hmem.1⟩⟩

/-- C8 at the hostname endpoint of host `foo.example.com.` and an address
with hostname `lb.example.com.`: the dot of the target is kept, as the target
`lb.example.com` of C7 is given none. -/
theorem endpointsFromIngress_target_verbatim_witness :
    (Endpoint.mk (str "foo.example.com.") (str "lb.example.com.")) ∈
      endpointsFromIngress
        (mkIngress [⟨str "foo.example.com."⟩] [⟨str "1.2.3.4", str "lb.example.com."⟩]) ∧
    ((∃ lb ∈ (mkIngress [⟨str "foo.example.com."⟩]
          [⟨str "1.2.3.4", str "lb.example.com."⟩]).Status.LoadBalancer.Ingress,
      (lb.IP ≠ [] ∧ str "lb.example.com." = lb.IP) ∨
        (lb.Hostname ≠ [] ∧ str "lb.example.com." = lb.Hostname)) ∧
    (∃ r ∈ (mkIngress [⟨str "foo.example.com."⟩]
          [⟨str "1.2.3.4", str "lb.example.com."⟩]).Spec.Rules,
      r.Host ≠ [] ∧ str "foo.example.com." = sanitizeHostname r.Host)) :=
  ⟨by decide,
    endpointsFromIngress_target_verbatim
      (mkIngress [⟨str "foo.example.com."⟩] [⟨str "1.2.3.4", str "lb.example.com."⟩])
      ⟨str "foo.example.com.", str "lb.example.com."⟩ (by decide)⟩

/-- C9: a resource with no rule with a non-empty host (no rule at all, or
every host `""`), or with no load-balancer address, yields the empty list. -/
theorem endpointsFromIngress_empty (ing : Ingress)
    (h : (∀ r ∈ ing.Spec.Rules, r.Host = []) ∨ ing.Status.LoadBalancer.Ingress = []) :
    endpointsFromIngress ing = [] := by
  rw [endpointsFromIngress_eq]
  apply List.eq_nil_iff_forall_not_mem.mpr
  intro e he
  rw [mem_endpointsSpec] at he
  obtain ⟨r, hr, hne, lb, hlb, _⟩ := he
  rcases h with h | h
  · exact hne (h r hr)
  · rw [h] at hlb
    exact List.not_mem_nil lb hlb

/-- C9 at three resources: no rule, one rule with host `""` and an address,
one rule with a host and no address. -/
theorem endpointsFromIngress_empty_witness :
    endpointsFromIngress (mkIngress [] [⟨str "1.2.3.4", str "lb.example.com"⟩]) = [] ∧
    endpointsFromIngress (mkIngress [⟨str ""⟩] [⟨str "1.2.3.4", str "lb.example.com"⟩]) = [] ∧
    endpointsFromIngress (mkIngress [⟨str "foo.example.com"⟩] []) = [] :=
  ⟨endpointsFromIngress_empty (mkIngress [] [⟨str "1.2.3.4", str "lb.example.com"⟩])
      (Or.inl (by decide)),
    endpointsFromIngress_empty (mkIngress [⟨str ""⟩] [⟨str "1.2.3.4", str "lb.example.com"⟩])
      (Or.inl (by decide)),
    endpointsFromIngress_empty (mkIngress [⟨str "foo.example.com"⟩] []) (Or.inr rfl)⟩

/-- C10, as stated, fails: one rule and one address carrying both an IP and a
hostname give two endpoints, not `1 * 1`; one rule and one address carrying
neither give none, not `1 * 1`. -/
theorem endpointsFromIngress_length_not_cross_product :
    ((endpointsFromIngress
        (mkIngress [⟨str "foo.example.com"⟩] [⟨str "1.2.3.4", str "lb.example.com"⟩])).length
        = 2 ∧
      nonEmptyHosts [⟨str "foo.example.com"⟩] *
        [LoadBalancerIngress.mk (str "1.2.3.4") (str "lb.example.com")].length = 1) ∧
    ((endpointsFromIngress (mkIngress [⟨str "foo.example.com"⟩] [⟨str "", str ""⟩])).length
        = 0 ∧
      nonEmptyHosts [⟨str "foo.example.com"⟩] *
        [LoadBalancerIngress.mk (str "") (str "")].length = 1) := by
  decide

/-- C10, amended: when every address of the resource carries exactly one of
IP and hostname, the number of endpoints is the number of rules with a
non-empty host times the number of addresses. -/
theorem endpointsFromIngress_length_cross_product (ing : Ingress)
    (h : ∀ lb ∈ ing.Status.LoadBalancer.Ingress,
      (lb.IP ≠ [] ∧ lb.Hostname = []) ∨ (lb.IP = [] ∧ lb.Hostname ≠ [])) :
    (endpointsFromIngress ing).length =
      nonEmptyHosts ing.Spec.Rules * ing.Status.LoadBalancer.Ingress.length := by
  rw [endpointsFromIngress_eq, length_endpointsSpec]
  congr 1
  generalize ing.Status.LoadBalancer.Ingress = addrs at h
  induction addrs with
  | nil => rfl
  | cons lb rest ih =>
    have hlb : addressWeight lb = 1 := by
      unfold addressWeight
      rcases h lb (List.mem_cons_self lb rest) with ⟨h1, h2⟩ | ⟨h1, h2⟩ <;> simp [h1, h2]
    rw [List.map_cons, List.sum_cons, hlb, List.length_cons,
      ih (fun x hx => h x (List.mem_cons_of_mem lb hx))]
    omega

/-- C10, amended, at two rules with hosts (and one without) and two
addresses, one with an IP and one with a hostname: `2 * 2` endpoints. -/
theorem endpointsFromIngress_length_cross_product_witness :
    (∀ lb ∈ (mkIngress [⟨str "a.example.com"⟩, ⟨str ""⟩, ⟨str "b.example.com"⟩]
        [⟨str "1.2.3.4", str ""⟩, ⟨str "", str "lb.example.com"⟩]).Status.LoadBalancer.Ingress,
      (lb.IP ≠ [] ∧ lb.Hostname = []) ∨ (lb.IP = [] ∧ lb.Hostname ≠ [])) ∧
    (endpointsFromIngress
      (mkIngress [⟨str "a.example.com"⟩, ⟨str ""⟩, ⟨str "b.example.com"⟩]
        [⟨str "1.2.3.4", str ""⟩, ⟨str "", str "lb.example.com"⟩])).length = 2 * 2 :=
  ⟨by decide,
    (endpointsFromIngress_length_cross_product
      (mkIngress [⟨str "a.example.com"⟩, ⟨str ""⟩, ⟨str "b.example.com"⟩]
        [⟨str "1.2.3.4", str ""⟩, ⟨str "", str "lb.example.com"⟩]) (by decide)).trans
      (by decide)⟩

/-! ## Lemmas for `ingressSource.Endpoints` -/

/-- The shape of a sanitized name: non-empty, one dot at the end and none
before it, and no dot at the start unless the name is the single dot. -/
theorem sanitizeHostname_shape (h : GoString) :
    sanitizeHostname h ≠ [] ∧
    (sanitizeHostname h).getLast? = some dot ∧
    (1 < (sanitizeHostname h).length →
      (sanitizeHostname h)[(sanitizeHostname h).length - 2]? ≠ some dot) ∧
    ((sanitizeHostname h).head? = some dot → sanitizeHostname h = [dot]) := by
  obtain ⟨_, _, _, _, _, hhead, hlast, hs⟩ := sanitizeHostname_core h
  rw [hs]
  refine ⟨by simp, by simp, ?_, ?_⟩
  · intro hlen
    have hidx : (Trim h dot ++ [dot]).length - 2 = (Trim h dot).length - 1 := by
      simp only [List.length_append, List.length_singleton]
      omega
    have hpos : (Trim h dot).length - 1 < (Trim h dot).length := by
      simp only [List.length_append, List.length_singleton] at hlen
      omega
    rw [hidx, List.getElem?_append_left hpos, ← List.getLast?_eq_getElem?]
    exact hlast
  · intro hd
    cases hc : Trim h dot with
    | nil => rfl
    | cons b rest =>
      rw [hc] at hd hhead
      exact absurd (by simpa using hd) hhead

/-- The loop of `Endpoints` appends, resource by resource, the endpoints of
each resource. -/
theorem foldl_append_endpointsFromIngress (items : List Ingress) (acc : List Endpoint) :
    items.foldl (fun endpoints ing => endpoints ++ endpointsFromIngress ing) acc =
      acc ++ items.flatMap endpointsFromIngress := by
  induction items generalizing acc with
  | nil => simp
  | cons ing rest ih => rw [List.foldl_cons, ih, List.flatMap_cons, List.append_assoc]

/-- When the listing succeeds, `Endpoints` returns the concatenation and no
error. -/
theorem Endpoints_of_ok {Err : Type} (sc : ingressSource Err)
    (h : (sc.client.ListIngresses sc.nspace).2 = none) :
    sc.Endpoints =
      ((sc.client.ListIngresses sc.nspace).1.Items.flatMap endpointsFromIngress, none) := by
  unfold ingressSource.Endpoints
  rcases hl : sc.client.ListIngresses sc.nspace with ⟨ingresses, err⟩
  rw [hl] at h
  simp only at h
  subst h
  simp only [foldl_append_endpointsFromIngress, List.nil_append]

/-- When the listing fails, `Endpoints` returns the error and no endpoint. -/
theorem Endpoints_of_error {Err : Type} (sc : ingressSource Err) (e : Err)
    (h : (sc.client.ListIngresses sc.nspace).2 = some e) :
    sc.Endpoints = ([], some e) := by
  unfold ingressSource.Endpoints
  rcases hl : sc.client.ListIngresses sc.nspace with ⟨ingresses, err⟩
  rw [hl] at h
  simp only at h
  subst h
  rfl

/-! ## Claims about `ingressSource.Endpoints` -/

/-- C11: every endpoint returned by `endpointsFromIngress` on any resource,
and so every endpoint returned by `ingressSource.Endpoints` when the listing
succeeds, has a `DNSName` that is non-empty, ends with exactly one `.`, and
has no leading `.` unless it is exactly `"."`. -/
theorem endpoints_dnsName_wellformed (Err : Type) :
    (∀ (ing : Ingress) (e : Endpoint), e ∈ endpointsFromIngress ing →
      e.DNSName ≠ [] ∧ e.DNSName.getLast? = some dot ∧
      (1 < e.DNSName.length → e.DNSName[e.DNSName.length - 2]? ≠ some dot) ∧
      (e.DNSName.head? = some dot → e.DNSName = [dot])) ∧
    (∀ (sc : ingressSource Err) (e : Endpoint),
      sc.Endpoints.2 = none → e ∈ sc.Endpoints.1 →
      e.DNSName ≠ [] ∧ e.DNSName.getLast? = some dot ∧
      (1 < e.DNSName.length → e.DNSName[e.DNSName.length - 2]? ≠ some dot) ∧
      (e.DNSName.head? = some dot → e.DNSName = [dot])) := by
  have key : ∀ (ing : Ingress) (e : Endpoint), e ∈ endpointsFromIngress ing →
      e.DNSName ≠ [] ∧ e.DNSName.getLast? = some dot ∧
      (1 < e.DNSName.length → e.DNSName[e.DNSName.length - 2]? ≠ some dot) ∧
      (e.DNSName.head? = some dot → e.DNSName = [dot]) := by
    intro ing e he
    rw [endpointsFromIngress_eq, mem_endpointsSpec] at he
    obtain ⟨r, _, _, lb, _, hmem⟩ := he
    rw [mem_emitAddress] at hmem
    rw [hmem.1]
    exact sanitizeHostname_shape r.Host
  refine ⟨key, ?_⟩
  intro sc e hok he
  cases hl : (sc.client.ListIngresses sc.nspace).2 with
  | some err =>
    rw [Endpoints_of_error sc err hl] at hok
    exact absurd hok (by simp)
  | none =>
    rw [Endpoints_of_ok sc hl] at he
    obtain ⟨ing, _, hing⟩ := List.mem_flatMap.mp he
    exact key ing e hing

/-- C12: when the listing succeeds with the resources `r1..rN`, `Endpoints`
returns, with no error, the concatenation of `endpointsFromIngress r1`, ...,
`endpointsFromIngress rN` in listing order, and its length is the sum of the
lengths of the extractions. -/
theorem Endpoints_concatenates {Err : Type} (sc : ingressSource Err)
    (h : (sc.client.ListIngresses sc.nspace).2 = none) :
    sc.Endpoints =
      ((sc.client.ListIngresses sc.nspace).1.Items.flatMap endpointsFromIngress, none) ∧
    sc.Endpoints.1.length =
      ((sc.client.ListIngresses sc.nspace).1.Items.map
        (fun ing => (endpointsFromIngress ing).length)).sum := by
  rw [Endpoints_of_ok sc h]
  refine ⟨rfl, ?_⟩
  simp only [List.length_flatMap]
  rfl

/-- C12 at a listing of two resources, of two endpoints and one endpoint. -/
theorem Endpoints_concatenates_witness :
    ((listingClient Unit
        [mkIngress [⟨str "foo.example.com"⟩] [⟨str "1.2.3.4", str "lb.example.com"⟩],
         mkIngress [⟨str ""⟩, ⟨str "bar.example.com"⟩] [⟨str "", str "lb.example.com"⟩]]
      ).ListIngresses (str "default")).2 = none ∧
    (ingressSource.mk (listingClient Unit
        [mkIngress [⟨str "foo.example.com"⟩] [⟨str "1.2.3.4", str "lb.example.com"⟩],
         mkIngress [⟨str ""⟩, ⟨str "bar.example.com"⟩] [⟨str "", str "lb.example.com"⟩]])
      (str "default")).Endpoints =
      ([{ DNSName := str "foo.example.com.", Target := str "1.2.3.4" },
        { DNSName := str "foo.example.com.", Target := str "lb.example.com" },
        { DNSName := str "bar.example.com.", Target := str "lb.example.com" }], none) :=
  ⟨rfl,
    (Endpoints_concatenates
      (ingressSource.mk (listingClient Unit
        [mkIngress [⟨str "foo.example.com"⟩] [⟨str "1.2.3.4", str "lb.example.com"⟩],
         mkIngress [⟨str ""⟩, ⟨str "bar.example.com"⟩] [⟨str "", str "lb.example.com"⟩]])
        (str "default")) rfl).1.trans (by decide)⟩

/-- C13: `Endpoints` fails exactly when the listing fails, and when the
listing fails with the error `e` it returns `e` itself and no endpoint,
whatever the list that came with the error holds. -/
theorem Endpoints_fails_iff_listing_fails {Err : Type} (sc : ingressSource Err) :
    (sc.Endpoints.2 ≠ none ↔ (sc.client.ListIngresses sc.nspace).2 ≠ none) ∧
    (∀ e : Err, (sc.client.ListIngresses sc.nspace).2 = some e →
      sc.Endpoints = ([], some e)) := by
  refine ⟨?_, fun e he => Endpoints_of_error sc e he⟩
  cases hl : (sc.client.ListIngresses sc.nspace).2 with
  | some err => rw [Endpoints_of_error sc err hl]
  | none => rw [Endpoints_of_ok sc hl]

/-- C13 at a client that fails with the error `"boom"` while its list holds a
resource with two endpoints: the error comes back and no endpoint does. -/
theorem Endpoints_fails_iff_listing_fails_witness :
    (ingressSource.mk (failingClient
        [mkIngress [⟨str "foo.example.com"⟩] [⟨str "1.2.3.4", str "lb.example.com"⟩]]
        (str "boom")) (str "default")).Endpoints = ([], some (str "boom")) :=
  (Endpoints_fails_iff_listing_fails
    (ingressSource.mk (failingClient
      [mkIngress [⟨str "foo.example.com"⟩] [⟨str "1.2.3.4", str "lb.example.com"⟩]]
      (str "boom")) (str "default"))).2 (str "boom") rfl

/-! ## Further claims about `endpointsFromIngress` -/

/-- C15: `endpointsFromIngress` does not deduplicate: the hosts
`a.example.com` and `a.example.com.` (or the same host twice) and one address
with the IP `1.2.3.4` yield the endpoint `{a.example.com., 1.2.3.4}` twice. -/
theorem endpointsFromIngress_keeps_duplicates :
    endpointsFromIngress
      (mkIngress [⟨str "a.example.com"⟩, ⟨str "a.example.com."⟩] [⟨str "1.2.3.4", str ""⟩]) =
      [{ DNSName := str "a.example.com.", Target := str "1.2.3.4" },
       { DNSName := str "a.example.com.", Target := str "1.2.3.4" }] ∧
    endpointsFromIngress
      (mkIngress [⟨str "a.example.com"⟩, ⟨str "a.example.com"⟩] [⟨str "1.2.3.4", str ""⟩]) =
      [{ DNSName := str "a.example.com.", Target := str "1.2.3.4" },
       { DNSName := str "a.example.com.", Target := str "1.2.3.4" }] ∧
    ∃ ing : Ingress, ¬ (endpointsFromIngress ing).Nodup :=
  ⟨by decide, by decide,
    ⟨mkIngress [⟨str "a.example.com"⟩, ⟨str "a.example.com."⟩] [⟨str "1.2.3.4", str ""⟩],
      by decide⟩⟩

/-- The specification-worded extraction of one rule distributes over the
address list. -/
theorem endpointsSpec_single_append (r : IngressRule) (as1 as2 : List LoadBalancerIngress) :
    endpointsSpec [r] (as1 ++ as2) = endpointsSpec [r] as1 ++ endpointsSpec [r] as2 := by
  unfold endpointsSpec
  by_cases h : r.Host = []
  · simp [h]
  · simp [h, List.flatMap_append]

/-- C17: `endpointsFromIngress` distributes over concatenation of the rule
list, and for a single rule over concatenation of the address list. -/
theorem endpointsFromIngress_distributes (rs1 rs2 : List IngressRule)
    (addrs : List LoadBalancerIngress) (r : IngressRule) (as1 as2 : List LoadBalancerIngress) :
    endpointsFromIngress (mkIngress (rs1 ++ rs2) addrs) =
      endpointsFromIngress (mkIngress rs1 addrs) ++
        endpointsFromIngress (mkIngress rs2 addrs) ∧
    endpointsFromIngress (mkIngress [r] (as1 ++ as2)) =
      endpointsFromIngress (mkIngress [r] as1) ++ endpointsFromIngress (mkIngress [r] as2) := by
  simp only [endpointsFromIngress_eq, mkIngress]
  exact ⟨endpointsSpec_append rs1 rs2 addrs, endpointsSpec_single_append r as1 as2⟩

/-- An address with neither an IP nor a hostname emits nothing. -/
theorem emitAddress_empty (host : GoString) (lb : LoadBalancerIngress)
    (h1 : lb.IP = []) (h2 : lb.Hostname = []) : emitAddress host lb = [] := by
  simp [emitAddress, h1, h2]

/-- Removing an address with neither field from the address list changes
nothing. -/
theorem endpointsSpec_skip_address (rules : List IngressRule)
    (pre post : List LoadBalancerIngress) (lb : LoadBalancerIngress)
    (h1 : lb.IP = []) (h2 : lb.Hostname = []) :
    endpointsSpec rules (pre ++ [lb] ++ post) = endpointsSpec rules (pre ++ post) := by
  unfold endpointsSpec
  congr 1
  funext r
  simp [List.flatMap_append, emitAddress_empty r.Host lb h1 h2]

/-- C16: the number of endpoints is the number of rules with a non-empty host
times the sum over the addresses of one for a non-empty IP plus one for a
non-empty hostname; so an address with both fields empty contributes nothing,
and the output is empty exactly when no rule has a non-empty host or no
address has a non-empty IP or hostname. -/
theorem endpointsFromIngress_length (ing : Ingress) :
    (endpointsFromIngress ing).length =
      (ing.Spec.Rules.filter (fun r => decide (r.Host ≠ []))).length *
        (ing.Status.LoadBalancer.Ingress.map (fun lb =>
          (if lb.IP ≠ [] then 1 else 0) + (if lb.Hostname ≠ [] then 1 else 0))).sum ∧
    (∀ (pre post : List LoadBalancerIngress) (lb : LoadBalancerIngress),
      lb.IP = [] → lb.Hostname = [] →
      endpointsFromIngress (mkIngress ing.Spec.Rules (pre ++ [lb] ++ post)) =
        endpointsFromIngress (mkIngress ing.Spec.Rules (pre ++ post))) ∧
    (endpointsFromIngress ing = [] ↔
      (∀ r ∈ ing.Spec.Rules, r.Host = []) ∨
      (∀ lb ∈ ing.Status.LoadBalancer.Ingress, lb.IP = [] ∧ lb.Hostname = [])) := by
  refine ⟨?_, ?_, ?_⟩
  · rw [endpointsFromIngress_eq]
    exact length_endpointsSpec ing.Spec.Rules ing.Status.LoadBalancer.Ingress
  · intro pre post lb h1 h2
    simp only [endpointsFromIngress_eq, mkIngress]
    exact endpointsSpec_skip_address ing.Spec.Rules pre post lb h1 h2
  · rw [endpointsFromIngress_eq, List.eq_nil_iff_forall_not_mem]
    constructor
    · intro hnone
      by_contra hcon
      rw [not_or] at hcon
      obtain ⟨hr, hlb⟩ := hcon
      push_neg at hr hlb
      obtain ⟨r, hrmem, hrne⟩ := hr
      obtain ⟨lb, hlbmem, hlbne⟩ := hlb
      by_cases hip : lb.IP = []
      · exact hnone ⟨sanitizeHostname r.Host, lb.Hostname⟩
          ((mem_endpointsSpec _ _ _).mpr ⟨r, hrmem, hrne, lb, hlbmem,
            (mem_emitAddress _ _ _).mpr ⟨rfl, Or.inr ⟨hlbne hip, rfl⟩⟩⟩)
      · exact hnone ⟨sanitizeHostname r.Host, lb.IP⟩
          ((mem_endpointsSpec _ _ _).mpr ⟨r, hrmem, hrne, lb, hlbmem,
            (mem_emitAddress _ _ _).mpr ⟨rfl, Or.inl ⟨hip, rfl⟩⟩⟩)
    · intro h e he
      obtain ⟨r, hrmem, hrne, lb, hlbmem, hmem⟩ := (mem_endpointsSpec _ _ _).mp he
      rcases h with h | h
      · exact hrne (h r hrmem)
      · rcases ((mem_emitAddress _ _ _).mp hmem).2 with ⟨hne, _⟩ | ⟨hne, _⟩
        · exact hne (h lb hlbmem).1
        · exact hne (h lb hlbmem).2

/-! ## Surrounding dots -/

/-- The left trim is blind to a run of `c` in front. -/
theorem trimLeftByte_run_append (a s : GoString) (c : UInt8) (h : ∀ x ∈ a, x = c) :
    trimLeftByte (a ++ s) c = trimLeftByte s c := by
  induction a with
  | nil => rfl
  | cons b rest ih =>
    have hb : b = c := h b (List.mem_cons_self b rest)
    subst hb
    rw [List.cons_append, trimLeftByte_cons_eq]
    exact ih (fun x hx => h x (List.mem_cons_of_mem b hx))

/-- The right trim is blind to a run of `c` at the end. -/
theorem trimRightByte_append_run (s b : GoString) (c : UInt8) (h : ∀ x ∈ b, x = c) :
    trimRightByte (s ++ b) c = trimRightByte s c := by
  unfold trimRightByte
  rw [List.reverse_append,
    trimLeftByte_run_append b.reverse s.reverse c (fun x hx => h x (List.mem_reverse.mp hx))]

/-- `Trim` is blind to one more `c` in front. -/
theorem Trim_cons (s : GoString) (c : UInt8) : Trim (c :: s) c = Trim s c := by
  rw [Trim_eq, Trim_eq]
  obtain ⟨b, hs, hb, hlast⟩ := trimRightByte_split s c
  generalize trimRightByte s c = t at hs hlast
  have hcs : trimRightByte (c :: s) c = trimRightByte (c :: t) c := by
    rw [hs, ← List.cons_append]
    exact trimRightByte_append_run (c :: t) b c hb
  rw [hcs]
  cases t with
  | nil => simp [trimRightByte, trimLeftByte]
  | cons x rest =>
    have hl : (c :: x :: rest).getLast? ≠ some c := by
      simpa [List.getLast?_cons_cons] using hlast
    rw [trimRightByte_of_getLast _ c hl, trimLeftByte_cons_eq]

/-- `Trim` is blind to a run of `c` in front. -/
theorem Trim_run_append (a s : GoString) (c : UInt8) (ha : ∀ x ∈ a, x = c) :
    Trim (a ++ s) c = Trim s c := by
  induction a with
  | nil => rfl
  | cons x rest ih =>
    have hx : x = c := ha x (List.mem_cons_self x rest)
    subst hx
    rw [List.cons_append, Trim_cons]
    exact ih (fun y hy => ha y (List.mem_cons_of_mem x hy))

/-- `Trim` is blind to runs of `c` on both sides. -/
theorem Trim_surrounded (a s b : GoString) (c : UInt8) (ha : ∀ x ∈ a, x = c)
    (hb : ∀ x ∈ b, x = c) : Trim (a ++ s ++ b) c = Trim s c := by
  rw [Trim_eq, trimRightByte_append_run (a ++ s) b c hb, ← Trim_eq]
  exact Trim_run_append a s c ha

/-- Hosts that differ only in surrounding dots have the same sanitized name. -/
theorem sanitizeHostname_dotVariant (h1 h2 : GoString) (h : dotVariant h1 h2) :
    sanitizeHostname h1 = sanitizeHostname h2 := by
  obtain ⟨a1, b1, a2, b2, core, ha1, hb1, ha2, hb2, e1, e2⟩ := h
  unfold sanitizeHostname
  rw [e1, e2, Trim_surrounded a1 core b1 dot ha1 hb1, Trim_surrounded a2 core b2 dot ha2 hb2]

/-- Rule lists that differ only in surrounding dots of hosts extract alike. -/
theorem endpointsSpec_dotVariant (rs1 rs2 : List IngressRule)
    (addrs : List LoadBalancerIngress) (h : List.Forall₂ ruleDotVariant rs1 rs2) :
    endpointsSpec rs1 addrs = endpointsSpec rs2 addrs := by
  induction h with
  | nil => rfl
  | @cons r1 r2 l1 l2 hr _ ih =>
    have e1 : r1 :: l1 = [r1] ++ l1 := rfl
    have e2 : r2 :: l2 = [r2] ++ l2 := rfl
    rw [e1, e2, endpointsSpec_append, endpointsSpec_append, ih]
    congr 1
    obtain ⟨hdv, hiff⟩ := hr
    have hs := sanitizeHostname_dotVariant r1.Host r2.Host hdv
    by_cases hh : r1.Host = []
    · rw [endpointsSpec_empty_host r1 addrs hh, endpointsSpec_empty_host r2 addrs (hiff.mp hh)]
    · have hh2 : r2.Host ≠ [] := fun hc => hh (hiff.mpr hc)
      have hemit : emitAddress r1.Host = emitAddress r2.Host := by
        funext lb
        unfold emitAddress
        rw [hs]
      simp [endpointsSpec, hh, hh2, hemit]

/-- C18: `sanitizeHostname` ignores surrounding dots,
`sanitizeHostname ("." ++ h) = sanitizeHostname h = sanitizeHostname (h ++ ".")`,
and two resources that differ only in leading and trailing dots of rule hosts,
the non-empty hosts staying non-empty, yield the same endpoint list. -/
theorem sanitizeHostname_ignores_surrounding_dots (h : GoString)
    (rs1 rs2 : List IngressRule) (addrs : List LoadBalancerIngress)
    (hrel : List.Forall₂ ruleDotVariant rs1 rs2) :
    sanitizeHostname ([dot] ++ h) = sanitizeHostname h ∧
    sanitizeHostname h = sanitizeHostname (h ++ [dot]) ∧
    endpointsFromIngress (mkIngress rs1 addrs) = endpointsFromIngress (mkIngress rs2 addrs) := by
  refine ⟨?_, ?_, ?_⟩
  · unfold sanitizeHostname
    rw [List.singleton_append, Trim_cons]
  · unfold sanitizeHostname
    rw [Trim_concat]
  · simp only [endpointsFromIngress_eq, mkIngress]
    exact endpointsSpec_dotVariant rs1 rs2 addrs hrel

/-- C18 at the host `foo.example.com` and at the rule lists
`.a.example.com`, `""` and `a.example.com..`, `""`. -/
theorem sanitizeHostname_ignores_surrounding_dots_witness :
    List.Forall₂ ruleDotVariant
      [⟨str ".a.example.com"⟩, ⟨str ""⟩] [⟨str "a.example.com.."⟩, ⟨str ""⟩] ∧
    sanitizeHostname ([dot] ++ str "foo.example.com") = sanitizeHostname (str "foo.example.com") ∧
    sanitizeHostname (str "foo.example.com") = sanitizeHostname (str "foo.example.com" ++ [dot]) ∧
    endpointsFromIngress
      (mkIngress [⟨str ".a.example.com"⟩, ⟨str ""⟩] [⟨str "1.2.3.4", str "lb.example.com"⟩]) =
    endpointsFromIngress
      (mkIngress [⟨str "a.example.com.."⟩, ⟨str ""⟩] [⟨str "1.2.3.4", str "lb.example.com"⟩]) :=
  have hrel : List.Forall₂ ruleDotVariant
      [⟨str ".a.example.com"⟩, ⟨str ""⟩] [⟨str "a.example.com.."⟩, ⟨str ""⟩] :=
    List.Forall₂.cons
      ⟨⟨[dot], [], [], [dot, dot], str "a.example.com",
        by decide, by decide, by decide, by decide, by decide, by decide⟩, by decide⟩
      (List.Forall₂.cons
        ⟨⟨[], [], [], [], [], by decide, by decide, by decide, by decide, by decide, by decide⟩,
          by decide⟩
        List.Forall₂.nil)
  ⟨hrel,
    sanitizeHostname_ignores_surrounding_dots (str "foo.example.com")
      [⟨str ".a.example.com"⟩, ⟨str ""⟩] [⟨str "a.example.com.."⟩, ⟨str ""⟩]
      [⟨str "1.2.3.4", str "lb.example.com"⟩] hrel⟩

end ExternalDNS
